import Mathlib

/-!
Shallow embedding of the aggregation core of `market_stats.py`:
`get_total_price`, `get_total_price_by_name` and `get_total_price_by_month`
over a list of `MarketItem` records, together with models of the
`strftime "%Y-%b"` / `strptime "%Y-%b"` month-label rendering and parsing
that the by-month aggregation uses.

Python dictionaries are modelled as insertion-ordered association lists
(`Totals`); Python `sorted` (a stable sort) is modelled by `List.mergeSort`;
prices are modelled as rationals.
-/

namespace MarketStats

/-- A calendar date as stored in a Python `datetime` (the records' time
fields are always midnight, so only year/month/day matter).  `datetime`
enforces `1 <= month <= 12`; that invariant is carried as proofs.
`datetime` also enforces `year <= 9999` (`datetime.MAXYEAR`); the structure
does not carry that bound, so theorems that depend on it (the month-advance
raise modelled by `monthWalkE`) take it as an explicit hypothesis. -/
structure Date where
  year : Nat
  month : Nat
  day : Nat
  month_pos : 1 ≤ month
  month_le : month ≤ 12

/-- Python `datetime` order `a <= b`: lexicographic on (year, month, day). -/
def Date.lex (a b : Date) : Prop :=
  a.year < b.year ∨
    (a.year = b.year ∧ (a.month < b.month ∨ (a.month = b.month ∧ a.day ≤ b.day)))

instance : DecidableRel Date.lex := fun a b => by
  unfold Date.lex; infer_instance

/-- Python `datetime` strict order `a < b`. -/
def Date.lexLt (a b : Date) : Prop :=
  a.year < b.year ∨
    (a.year = b.year ∧ (a.month < b.month ∨ (a.month = b.month ∧ a.day < b.day)))

instance : DecidableRel Date.lexLt := fun a b => by
  unfold Date.lexLt; infer_instance

/-- `d.replace(day=1)` from the source. -/
def Date.firstOfMonth (d : Date) : Date := { d with day := 1 }

/-- The month cursor advance from the source's loop body:
`current.replace(year=current.year+1, month=1)` when the month is December,
else `current.replace(month=current.month+1)`. -/
def Date.nextMonth (d : Date) : Date :=
  if h : d.month = 12 then
    { year := d.year + 1, month := 1, day := d.day,
      month_pos := Nat.le_refl 1, month_le := by omega }
  else
    { year := d.year, month := d.month + 1, day := d.day,
      month_pos := by have := d.month_pos; omega,
      month_le := by have := d.month_le; omega }

/-- Linear month index `year*12 + month` used by the spec's loop contract. -/
def monthIdx (d : Date) : Nat := 12 * d.year + d.month

/-- One marketplace transaction record (`MarketItem` dataclass).  The
source stores `price` as an IEEE-754 double; it is modelled as an exact
rational, which is faithful to which records carry which amounts but
collapses float rounding: sums of prices are exact here, while the
program's float sums depend on association order. -/
structure MarketItem where
  name : String
  price : ℚ
  currency : String
  listed_on : Date
  acted_on : Date

/-- `get_total_price`: `sum([x.price for x in items])`. -/
def get_total_price (items : List MarketItem) : ℚ :=
  (items.map (fun x => x.price)).sum

/-! ### Month labels: models of `strftime("%Y-%b")` and `strptime("%Y-%b")` -/

/-- The decimal digit character for `d < 10`. -/
def digitChar (d : Nat) : Char := Char.ofNat (48 + d)

/-- Decimal digit string of a natural number (the `%Y` field of
`strftime`). -/
def natDigits (n : Nat) : List Char :=
  if n < 10 then [digitChar n]
  else natDigits (n / 10) ++ [digitChar (n % 10)]
decreasing_by exact Nat.div_lt_self (by omega) (by omega)

/-- The C-locale month abbreviation used by `%b` (months 1..12). -/
def monthAbbrev : Nat → String
  | 1 => "Jan" | 2 => "Feb" | 3 => "Mar" | 4 => "Apr"
  | 5 => "May" | 6 => "Jun" | 7 => "Jul" | 8 => "Aug"
  | 9 => "Sep" | 10 => "Oct" | 11 => "Nov" | 12 => "Dec"
  | _ => ""

/-- `current.strftime("%Y-%b")`: the year in decimal, a dash, the
abbreviated month name. -/
def formatMonth (y m : Nat) : String :=
  String.mk (natDigits y) ++ "-" ++ monthAbbrev m

/-- Split a character list at its first dash (the literal `-` of the
`"%Y-%b"` pattern). -/
def splitAtDash : List Char → List Char × List Char
  | [] => ([], [])
  | c :: rest =>
      if c = '-' then ([], rest)
      else ((splitAtDash rest).1.cons c, (splitAtDash rest).2)

/-- Numeric value of a decimal digit character, if it is one. -/
def digitVal (c : Char) : Option Nat :=
  if 48 ≤ c.toNat ∧ c.toNat ≤ 57 then some (c.toNat - 48) else none

/-- Left-to-right decimal accumulation over digit characters. -/
def parseDigitsAux : List Char → Nat → Option Nat
  | [], acc => some acc
  | c :: rest, acc =>
      match digitVal c with
      | some d => parseDigitsAux rest (acc * 10 + d)
      | none => none

/-- Parse a nonempty all-digit character list as a natural number
(the `%Y` field of `strptime`). -/
def parseDigits : List Char → Option Nat
  | [] => none
  | c :: rest => parseDigitsAux (c :: rest) 0

/-- Inverse month-abbreviation table (the `%b` field of `strptime`). -/
def abbrevToMonth (s : String) : Option Nat :=
  if s = "Jan" then some 1 else if s = "Feb" then some 2
  else if s = "Mar" then some 3 else if s = "Apr" then some 4
  else if s = "May" then some 5 else if s = "Jun" then some 6
  else if s = "Jul" then some 7 else if s = "Aug" then some 8
  else if s = "Sep" then some 9 else if s = "Oct" then some 10
  else if s = "Nov" then some 11 else if s = "Dec" then some 12
  else none

/-- Idealized `%Y-%b` parser used to model the by-month sort key: digits up
to the first dash give the year, the rest names the month.  CPython's
`strptime` matches `%Y` as exactly four digits, so this parser is strictly
more permissive: the two agree on every label with a four-digit year (the
only labels on which the program's sort returns instead of raising); the
faithful four-digit matcher is `strptimeYb` below. -/
def parseMonth (s : String) : Option (Nat × Nat) :=
  let p := splitAtDash s.data
  match parseDigits p.1, abbrevToMonth (String.mk p.2) with
  | some y, some m => some (y, m)
  | _, _ => none

/-- Faithful model of `datetime.strptime(s, "%Y-%b")` as CPython's
`_strptime` compiles it: `%Y` matches exactly four digit characters, then
the literal dash, then the month abbreviation, which must consume the rest
of the string. -/
def strptimeChars : List Char → Option (Nat × Nat)
  | d1 :: d2 :: d3 :: d4 :: dash :: rest =>
      if dash = '-' then
        match digitVal d1, digitVal d2, digitVal d3, digitVal d4,
            abbrevToMonth (String.mk rest) with
        | some a, some b, some c, some d, some m =>
            some (((a * 10 + b) * 10 + c) * 10 + d, m)
        | _, _, _, _, _ => none
      else none
  | _ => none

/-- `strptimeChars` applied to the string's characters. -/
def strptimeYb (s : String) : Option (Nat × Nat) := strptimeChars s.data

/-! ### Insertion-ordered dictionaries -/

/-- A Python dict from label to `(total_price, count)`, as the
insertion-ordered association list of its entries. -/
abbrev Totals := List (String × (ℚ × Nat))

/-- Dict lookup `totals[k]` (as an `Option`, i.e. together with the
membership check `k in totals`). -/
def lookupTot (totals : Totals) (k : String) : Option (ℚ × Nat) :=
  (totals.find? (fun p => p.1 == k)).map (fun p => p.2)

/-- Dict assignment `totals[k] = v` for a key already present: the entry
keeps its position. -/
def setKey (totals : Totals) (k : String) (v : ℚ × Nat) : Totals :=
  totals.map (fun p => if p.1 == k then (k, v) else p)

/-- `defaultdict` lookup: missing keys read as `(0.0, 0)`. -/
def lookupD (totals : Totals) (k : String) : ℚ × Nat :=
  match lookupTot totals k with
  | some v => v
  | none => (0, 0)

/-- The loop body of `get_total_price_by_name`: add `item.price` to the
item's name bucket (count +1), creating the bucket at the end of the dict
when absent. -/
def addName (totals : Totals) (item : MarketItem) : Totals :=
  match lookupTot totals item.name with
  | some tc => setKey totals item.name (tc.1 + item.price, tc.2 + 1)
  | none => totals ++ [(item.name, (item.price, 1))]

/-- `get_total_price_by_name`: accumulate per-name buckets in insertion
order, then `sorted(..., key=lambda x: x[1][0], reverse=True)` — a stable
sort descending by total price. -/
def get_total_price_by_name (items : List MarketItem) : Totals :=
  (items.foldl addName []).mergeSort (fun a b => decide (b.2.1 ≤ a.2.1))

/-- The body of the month-walk loop: `defaultdict` read of the bucket for
`k` followed by writing back `(total+price, count+1)`; a fresh key is
appended (that is where `defaultdict` inserts it). -/
def accrue (totals : Totals) (k : String) (price : ℚ) : Totals :=
  match lookupTot totals k with
  | some tc => setKey totals k (tc.1 + price, tc.2 + 1)
  | none => totals ++ [(k, (0 + price, 0 + 1))]

/-- The per-record while loop of `get_total_price_by_month`: while
`current <= end`, accrue the full price to `current`'s month bucket and
advance `current` one month. -/
def monthWalk (price : ℚ) (stop : Date) (cur : Date) (totals : Totals) : Totals :=
  if h : Date.lex cur stop then
    monthWalk price stop cur.nextMonth
      (accrue totals (formatMonth cur.year cur.month) price)
  else totals
termination_by 12 * stop.year + stop.month + 1 - (12 * cur.year + cur.month)
decreasing_by
  have h1 := cur.month_pos; have h2 := cur.month_le
  have h3 := stop.month_pos; have h4 := stop.month_le
  have hn : 12 * (Date.nextMonth cur).year + (Date.nextMonth cur).month
      = 12 * cur.year + cur.month + 1 := by
    unfold Date.nextMonth; split <;> simp <;> omega
  have hle : 12 * cur.year + cur.month ≤ 12 * stop.year + stop.month := by
    rcases h with h | ⟨hy, h | ⟨hm, hd⟩⟩ <;> omega
  omega

/-- Number of iterations the per-record while loop performs. -/
def monthWalkCount (stop cur : Date) : Nat :=
  if h : Date.lex cur stop then monthWalkCount stop cur.nextMonth + 1 else 0
termination_by 12 * stop.year + stop.month + 1 - (12 * cur.year + cur.month)
decreasing_by
  have h1 := cur.month_pos; have h2 := cur.month_le
  have h3 := stop.month_pos; have h4 := stop.month_le
  have hn : 12 * (Date.nextMonth cur).year + (Date.nextMonth cur).month
      = 12 * cur.year + cur.month + 1 := by
    unfold Date.nextMonth; split <;> simp <;> omega
  have hle : 12 * cur.year + cur.month ≤ 12 * stop.year + stop.month := by
    rcases h with h | ⟨hy, h | ⟨hm, hd⟩⟩ <;> omega
  omega

/-- Processing of one record inside `get_total_price_by_month`'s `for`
loop: walk from the first of `listed_on`'s month to the first of
`acted_on`'s month. -/
def accrueItem (totals : Totals) (item : MarketItem) : Totals :=
  monthWalk item.price item.acted_on.firstOfMonth item.listed_on.firstOfMonth totals

/-- `datetime.MAXYEAR`. -/
def maxYear : Nat := 9999

/-- The per-record while loop with `datetime.replace`'s range check kept:
advancing the cursor past December of `datetime.MAXYEAR` raises
`ValueError` (`current.replace(year=current.year+1, month=1)` with
`current.year + 1 > 9999`), modelled as `Except.error ()`.  The cursor's
day is always 1 here, so no other `replace` check can fire.  `monthWalk`
is the same loop with the raise collapsed. -/
def monthWalkE (price : ℚ) (stop : Date) (cur : Date) (totals : Totals) :
    Except Unit Totals :=
  if h : Date.lex cur stop then
    if herr : cur.month = 12 ∧ maxYear < cur.year + 1 then Except.error ()
    else
      monthWalkE price stop cur.nextMonth
        (accrue totals (formatMonth cur.year cur.month) price)
  else Except.ok totals
termination_by 12 * stop.year + stop.month + 1 - (12 * cur.year + cur.month)
decreasing_by
  have h1 := cur.month_pos; have h2 := cur.month_le
  have h3 := stop.month_pos; have h4 := stop.month_le
  have hn : 12 * (Date.nextMonth cur).year + (Date.nextMonth cur).month
      = 12 * cur.year + cur.month + 1 := by
    unfold Date.nextMonth; split <;> simp <;> omega
  have hle : 12 * cur.year + cur.month ≤ 12 * stop.year + stop.month := by
    rcases h with h | ⟨hy, h | ⟨hm, hd⟩⟩ <;> omega
  omega

/-- One record of `get_total_price_by_month`'s `for` loop, raise kept. -/
def accrueItemE (totals : Totals) (item : MarketItem) : Except Unit Totals :=
  monthWalkE item.price item.acted_on.firstOfMonth item.listed_on.firstOfMonth totals

/-- The `for` loop over all records, raise kept: the first `ValueError`
propagates out. -/
def accrueAllE : Totals → List MarketItem → Except Unit Totals
  | t, [] => Except.ok t
  | t, it :: rest =>
      match accrueItemE t it with
      | Except.ok t2 => accrueAllE t2 rest
      | Except.error e => Except.error e

/-- The sort key `datetime.strptime(x[0], "%Y-%b")` of the final by-month
sort, reduced to the (year, month) pair that determines the `datetime`'s
order (every key of the dict parses, so the default is never reached). -/
def monthKey (s : String) : Nat × Nat :=
  match parseMonth s with
  | some ym => ym
  | none => (0, 0)

/-- `datetime` comparison of two parsed sort keys (day and time components
are equal, so (year, month) decides). -/
def ymLe (a b : Nat × Nat) : Bool :=
  decide (a.1 < b.1 ∨ (a.1 = b.1 ∧ a.2 ≤ b.2))

/-- `get_total_price_by_month`: accrue every record across the months it
spans, then sort the buckets by re-parsing their labels. -/
def get_total_price_by_month (items : List MarketItem) : Totals :=
  (items.foldl accrueItem []).mergeSort (fun a b => ymLe (monthKey a.1) (monthKey b.1))

/-- `get_total_price_by_month` with the month-advance raise kept: on
success the buckets are sorted as in `get_total_price_by_month`; a raise
yields no result. -/
def get_total_price_by_monthE (items : List MarketItem) : Except Unit Totals :=
  match accrueAllE [] items with
  | Except.ok t => Except.ok (t.mergeSort (fun a b => ymLe (monthKey a.1) (monthKey b.1)))
  | Except.error e => Except.error e

/-! ### Derived notions used to state the claims -/

/-- The label of the month with linear index `i` (for `i = 12*y + m` with
`1 ≤ m ≤ 12` this is `formatMonth y m`). -/
def idxLabel (i : Nat) : String := formatMonth ((i - 1) / 12) ((i - 1) % 12 + 1)

/-- Sum of the prices of the records named `n`. -/
def sumPricesName (items : List MarketItem) (n : String) : ℚ :=
  ((items.filter fun it => it.name == n).map fun it => it.price).sum

/-- Number of records named `n`. -/
def countName (items : List MarketItem) (n : String) : Nat :=
  (items.filter fun it => it.name == n).length

/-- Strict chronological order on parsed (year, month) sort keys. -/
def ymLt (a b : Nat × Nat) : Prop :=
  a.1 < b.1 ∨ (a.1 = b.1 ∧ a.2 < b.2)

/-- The keys of a dict, in insertion order. -/
def keys (t : Totals) : List String := t.map fun p => p.1

/-- A string that is a rendered month label. -/
def goodKey (s : String) : Prop :=
  ∃ y m, 1 ≤ m ∧ m ≤ 12 ∧ s = formatMonth y m

/-! ### Concrete records for witnesses and counterexamples -/

def dJan1 : Date := ⟨2024, 1, 1, by norm_num, by norm_num⟩
def dJan15 : Date := ⟨2024, 1, 15, by norm_num, by norm_num⟩
def dFeb2 : Date := ⟨2024, 2, 2, by norm_num, by norm_num⟩
def dMar1 : Date := ⟨2024, 3, 1, by norm_num, by norm_num⟩

/-- A record spanning January through March 2024. -/
def itemKey : MarketItem := ⟨"Key", 10, "USD", dJan1, dMar1⟩

/-- A record whose `acted_on` (Jan 1) is strictly before its `listed_on`
(Jan 15) but inside the same calendar month. -/
def itemBad : MarketItem := ⟨"Key", 10, "USD", dJan15, dJan1⟩

/-- A record whose `acted_on` falls in a strictly earlier calendar month
than its `listed_on`. -/
def itemEarlier : MarketItem := ⟨"Key", 10, "USD", dFeb2, dJan1⟩

/-- A one-record list used by witnesses. -/
def itemSword : MarketItem := ⟨"Sword", 5, "USD", dJan1, dJan15⟩

def d999Jan1 : Date := ⟨999, 1, 1, by norm_num, by norm_num⟩
def dDec9999 : Date := ⟨9999, 12, 31, by norm_num, by norm_num⟩

/-- A record listed and acted on in January of year 999: its month label
renders with a three-digit year. -/
def item999 : MarketItem := ⟨"Key", 10, "USD", d999Jan1, d999Jan1⟩

/-- A valid record whose span ends in December of `datetime.MAXYEAR`. -/
def itemMaxYear : MarketItem := ⟨"Key", 10, "USD", dDec9999, dDec9999⟩

/-! ### Date arithmetic lemmas -/

theorem monthIdx_nextMonth (d : Date) : monthIdx d.nextMonth = monthIdx d + 1 := by
  have h2 := d.month_le
  unfold Date.nextMonth monthIdx
  split <;> simp <;> omega

theorem nextMonth_day (d : Date) : d.nextMonth.day = d.day := by
  unfold Date.nextMonth
  split <;> rfl

theorem firstOfMonth_monthIdx (d : Date) : monthIdx d.firstOfMonth = monthIdx d := rfl

theorem firstOfMonth_day (d : Date) : d.firstOfMonth.day = 1 := rfl

theorem lex_iff_monthIdx (a b : Date) (hd : a.day = b.day) :
    Date.lex a b ↔ monthIdx a ≤ monthIdx b := by
  have h1 := a.month_pos; have h2 := a.month_le
  have h3 := b.month_pos; have h4 := b.month_le
  unfold Date.lex monthIdx
  omega

theorem monthIdx_pos (d : Date) : 1 ≤ monthIdx d := by
  have := d.month_pos
  unfold monthIdx
  omega

/-! ### Month-label round trip -/

theorem digitVal_digitChar (d : Nat) (h : d < 10) : digitVal (digitChar d) = some d := by
  interval_cases d <;> decide

theorem digitChar_ne_dash (d : Nat) (h : d < 10) : digitChar d ≠ '-' := by
  interval_cases d <;> decide

theorem natDigits_ne_nil (n : Nat) : natDigits n ≠ [] := by
  unfold natDigits
  split <;> simp

theorem dash_not_mem_natDigits (n : Nat) : '-' ∉ natDigits n := by
  induction n using natDigits.induct with
  | case1 n h =>
      rw [natDigits]
      simp only [if_pos h, List.mem_singleton]
      exact fun he => digitChar_ne_dash n h he.symm
  | case2 n h ih =>
      rw [natDigits]
      simp only [if_neg h, List.mem_append, List.mem_singleton]
      rintro (hc | hc)
      · exact ih hc
      · exact digitChar_ne_dash (n % 10) (Nat.mod_lt _ (by omega)) hc.symm

theorem splitAtDash_append (xs ys : List Char) (h : '-' ∉ xs) :
    splitAtDash (xs ++ '-' :: ys) = (xs, ys) := by
  induction xs with
  | nil => simp [splitAtDash]
  | cons c rest ih =>
      simp only [List.mem_cons, not_or] at h
      rw [List.cons_append]
      unfold splitAtDash
      rw [if_neg (fun hc : c = '-' => h.1 hc.symm)]
      rw [ih h.2]

theorem parseDigitsAux_append (xs ys : List Char) (acc : Nat) :
    parseDigitsAux (xs ++ ys) acc =
      (parseDigitsAux xs acc).bind (fun a => parseDigitsAux ys a) := by
  induction xs generalizing acc with
  | nil => simp [parseDigitsAux]
  | cons c rest ih =>
      rw [List.cons_append]
      simp only [parseDigitsAux]
      cases hc : digitVal c
      · simp
      · simp only [hc]
        exact ih _

theorem parseDigitsAux_natDigits (n acc : Nat) :
    parseDigitsAux (natDigits n) acc = some (acc * 10 ^ (natDigits n).length + n) := by
  induction n using natDigits.induct generalizing acc with
  | case1 n h =>
      rw [natDigits]
      simp [if_pos h, parseDigitsAux, digitVal_digitChar n h, pow_one]
  | case2 n h ih =>
      rw [natDigits]
      simp only [if_neg h, List.length_append, List.length_singleton]
      rw [parseDigitsAux_append, ih]
      simp only [Option.some_bind]
      simp only [parseDigitsAux, digitVal_digitChar (n % 10) (Nat.mod_lt _ (by omega))]
      have hdm := Nat.div_add_mod n 10
      rw [pow_succ]
      congr 1
      calc (acc * 10 ^ (natDigits (n / 10)).length + n / 10) * 10 + n % 10
          = acc * (10 ^ (natDigits (n / 10)).length * 10) + (10 * (n / 10) + n % 10) := by
            ring
        _ = acc * (10 ^ (natDigits (n / 10)).length * 10) + n := by rw [hdm]

theorem parseDigits_natDigits (n : Nat) : parseDigits (natDigits n) = some n := by
  cases hne : natDigits n with
  | nil => exact absurd hne (natDigits_ne_nil n)
  | cons c rest =>
      rw [parseDigits, ← hne, parseDigitsAux_natDigits]
      simp

theorem abbrevToMonth_monthAbbrev (m : Nat) (h1 : 1 ≤ m) (h2 : m ≤ 12) :
    abbrevToMonth (monthAbbrev m) = some m := by
  interval_cases m <;> rfl

theorem formatMonth_data (y m : Nat) :
    (formatMonth y m).data = natDigits y ++ '-' :: (monthAbbrev m).data := by
  unfold formatMonth
  simp [String.data_append]

theorem parseMonth_formatMonth (y m : Nat) (h1 : 1 ≤ m) (h2 : m ≤ 12) :
    parseMonth (formatMonth y m) = some (y, m) := by
  unfold parseMonth
  rw [formatMonth_data, splitAtDash_append _ _ (dash_not_mem_natDigits y)]
  have hmk : String.mk (monthAbbrev m).data = monthAbbrev m := by
    cases monthAbbrev m
    rfl
  simp [parseDigits_natDigits, hmk, abbrevToMonth_monthAbbrev m h1 h2]

theorem formatMonth_inj (y m z k : Nat) (hm1 : 1 ≤ m) (hm2 : m ≤ 12)
    (hk1 : 1 ≤ k) (hk2 : k ≤ 12) (h : formatMonth y m = formatMonth z k) :
    y = z ∧ m = k := by
  have h1 := parseMonth_formatMonth y m hm1 hm2
  rw [h, parseMonth_formatMonth z k hk1 hk2] at h1
  simp only [Option.some.injEq, Prod.mk.injEq] at h1
  exact ⟨h1.1.symm, h1.2.symm⟩

theorem idxLabel_monthIdx (d : Date) : idxLabel (monthIdx d) = formatMonth d.year d.month := by
  have h1 := d.month_pos; have h2 := d.month_le
  unfold idxLabel monthIdx
  congr 1 <;> omega

theorem idxLabel_inj (i j : Nat) (hi : 1 ≤ i) (hj : 1 ≤ j) (h : idxLabel i = idxLabel j) :
    i = j := by
  unfold idxLabel at h
  have := formatMonth_inj _ _ _ _ (by omega) (by omega) (by omega) (by omega) h
  omega

/-! ### Dictionary lemmas -/

theorem lookupTot_nil (k : String) : lookupTot [] k = none := rfl

theorem lookupTot_cons (p : String × (ℚ × Nat)) (rest : Totals) (k : String) :
    lookupTot (p :: rest) k = if p.1 = k then some p.2 else lookupTot rest k := by
  by_cases h : p.1 = k
  · simp [lookupTot, List.find?_cons_of_pos, h]
  · rw [if_neg h]
    simp only [lookupTot]
    rw [List.find?_cons_of_neg _ (by simpa using h)]

theorem setKey_cons (p : String × (ℚ × Nat)) (rest : Totals) (k : String) (v : ℚ × Nat) :
    setKey (p :: rest) k v = (if p.1 = k then (k, v) else p) :: setKey rest k v := by
  simp only [setKey, List.map_cons]
  congr 1
  by_cases h : p.1 = k <;> simp [h]

theorem keys_cons (p : String × (ℚ × Nat)) (rest : Totals) :
    keys (p :: rest) = p.1 :: keys rest := rfl

theorem lookupTot_setKey_self (t : Totals) (k : String) (v : ℚ × Nat) :
    lookupTot (setKey t k v) k = (lookupTot t k).map (fun _ => v) := by
  induction t with
  | nil => rfl
  | cons p rest ih =>
      rw [setKey_cons, lookupTot_cons, lookupTot_cons]
      by_cases h : p.1 = k
      · simp [h]
      · simp [h, ih]

theorem lookupTot_setKey_other (t : Totals) (k k' : String) (v : ℚ × Nat)
    (h : k' ≠ k) : lookupTot (setKey t k v) k' = lookupTot t k' := by
  induction t with
  | nil => rfl
  | cons p rest ih =>
      rw [setKey_cons, lookupTot_cons, lookupTot_cons]
      by_cases hp : p.1 = k
      · simp [hp, Ne.symm h, ih]
      · simp only [if_neg hp]
        by_cases hp' : p.1 = k' <;> simp [hp', ih]

theorem lookupTot_append_single (t : Totals) (e : String × (ℚ × Nat)) (k : String) :
    lookupTot (t ++ [e]) k =
      match lookupTot t k with
      | some v => some v
      | none => if e.1 = k then some e.2 else none := by
  induction t with
  | nil =>
      rw [List.nil_append, lookupTot_cons, lookupTot_nil]
  | cons p rest ih =>
      rw [List.cons_append, lookupTot_cons, lookupTot_cons]
      by_cases hp : p.1 = k <;> simp [hp, ih]

theorem setKey_of_absent (t : Totals) (k : String) (v : ℚ × Nat)
    (h : lookupTot t k = none) : setKey t k v = t := by
  induction t with
  | nil => rfl
  | cons p rest ih =>
      rw [lookupTot_cons] at h
      by_cases hp : p.1 = k
      · rw [if_pos hp] at h
        exact absurd h (by simp)
      · rw [if_neg hp] at h
        rw [setKey_cons, if_neg hp, ih h]

theorem keys_setKey (t : Totals) (k : String) (v : ℚ × Nat) :
    keys (setKey t k v) = keys t := by
  induction t with
  | nil => rfl
  | cons p rest ih =>
      rw [setKey_cons, keys_cons, keys_cons]
      by_cases h : p.1 = k
      · rw [if_pos h, ih, ← h]
      · rw [if_neg h, ih]

theorem keys_append_single (t : Totals) (e : String × (ℚ × Nat)) :
    keys (t ++ [e]) = keys t ++ [e.1] := by
  simp [keys]

theorem lookupTot_eq_none_iff (t : Totals) (k : String) :
    lookupTot t k = none ↔ k ∉ keys t := by
  induction t with
  | nil => simp [lookupTot_nil, keys]
  | cons p rest ih =>
      rw [lookupTot_cons, keys_cons]
      by_cases h : p.1 = k
      · simp [h]
      · simp [h, ih, Ne.symm h]

theorem mem_iff_lookupTot (t : Totals) (hnd : (keys t).Nodup) (k : String) (v : ℚ × Nat) :
    (k, v) ∈ t ↔ lookupTot t k = some v := by
  induction t with
  | nil => simp [lookupTot_nil]
  | cons p rest ih =>
      rw [keys_cons, List.nodup_cons] at hnd
      rw [lookupTot_cons, List.mem_cons]
      by_cases hp : p.1 = k
      · rw [if_pos hp]
        simp only [Option.some.injEq]
        constructor
        · rintro (rfl | hmem)
          · rfl
          · exfalso
            apply hnd.1
            rw [hp]
            exact List.mem_map.mpr ⟨(k, v), hmem, rfl⟩
        · intro hv
          left
          rw [← hv, ← hp]
      · rw [if_neg hp]
        constructor
        · rintro (hpv | hmem)
          · exact absurd (congrArg Prod.fst hpv).symm hp
          · exact (ih hnd.2).mp hmem
        · intro hv
          exact Or.inr ((ih hnd.2).mpr hv)

/-! ### Effect of one accrual on the buckets -/

theorem lookupD_accrue_self (t : Totals) (k : String) (price : ℚ) :
    lookupD (accrue t k price) k = ((lookupD t k).1 + price, (lookupD t k).2 + 1) := by
  unfold accrue lookupD
  cases h : lookupTot t k with
  | some tc =>
      simp only []
      rw [lookupTot_setKey_self, h]
      rfl
  | none =>
      simp only []
      rw [lookupTot_append_single, h]
      simp

theorem lookupD_accrue_other (t : Totals) (k k' : String) (price : ℚ) (h : k' ≠ k) :
    lookupD (accrue t k price) k' = lookupD t k' := by
  unfold accrue lookupD
  cases hk : lookupTot t k with
  | some tc =>
      simp only []
      rw [lookupTot_setKey_other _ _ _ _ h]
  | none =>
      simp only []
      rw [lookupTot_append_single]
      cases hk' : lookupTot t k' <;> simp [Ne.symm h]

theorem keys_accrue_nodup (t : Totals) (k : String) (price : ℚ)
    (h : (keys t).Nodup) : (keys (accrue t k price)).Nodup := by
  unfold accrue
  cases hk : lookupTot t k with
  | some tc =>
      simp only []
      rw [keys_setKey]
      exact h
  | none =>
      simp only []
      rw [keys_append_single]
      refine List.Nodup.append h (List.nodup_singleton _) ?_
      intro a ha hb
      rw [List.mem_singleton] at hb
      have ha' : a = k := by simpa using hb
      exact (lookupTot_eq_none_iff t k).mp hk (ha' ▸ ha)

theorem goodKeys_accrue (t : Totals) (k : String) (price : ℚ)
    (h : ∀ p ∈ t, goodKey p.1) (hk : goodKey k) :
    ∀ p ∈ accrue t k price, goodKey p.1 := by
  unfold accrue
  cases hl : lookupTot t k with
  | some tc =>
      simp only []
      intro p hp
      rcases List.mem_map.mp hp with ⟨q, hq, rfl⟩
      by_cases hqk : q.1 = k
      · simpa [hqk] using hk
      · simpa [hqk] using h q hq
  | none =>
      simp only []
      intro p hp
      rcases List.mem_append.mp hp with hp | hp
      · exact h p hp
      · rw [List.mem_singleton] at hp
        subst hp
        exact hk

/-! ### The month-walk loop -/

theorem monthWalk_unchanged (price : ℚ) (stop : Date) (cur : Date) (t : Totals)
    (s : String) (hd : cur.day = stop.day)
    (hs : ∀ i, monthIdx cur ≤ i → i ≤ monthIdx stop → s ≠ idxLabel i) :
    lookupD (monthWalk price stop cur t) s = lookupD t s := by
  induction cur, t using monthWalk.induct price stop with
  | case1 cur t h ih =>
      rw [monthWalk, dif_pos h]
      have hidx : monthIdx cur ≤ monthIdx stop := (lex_iff_monthIdx cur stop hd).mp h
      have hn := monthIdx_nextMonth cur
      rw [ih (by rw [nextMonth_day]; exact hd)
        (fun i h1 h2 => hs i (by omega) h2)]
      exact lookupD_accrue_other t (formatMonth cur.year cur.month) s price
        (by rw [← idxLabel_monthIdx cur]; exact hs (monthIdx cur) le_rfl hidx)
  | case2 cur t h =>
      rw [monthWalk, dif_neg h]

theorem monthWalk_bump (price : ℚ) (stop : Date) (cur : Date) (t : Totals)
    (hd : cur.day = stop.day) (i : Nat)
    (hi1 : monthIdx cur ≤ i) (hi2 : i ≤ monthIdx stop) :
    lookupD (monthWalk price stop cur t) (idxLabel i)
      = ((lookupD t (idxLabel i)).1 + price, (lookupD t (idxLabel i)).2 + 1) := by
  induction cur, t using monthWalk.induct price stop with
  | case1 cur t h ih =>
      rw [monthWalk, dif_pos h]
      have hn := monthIdx_nextMonth cur
      have hp := monthIdx_pos cur
      by_cases hcur : i = monthIdx cur
      · rw [monthWalk_unchanged price stop cur.nextMonth _ (idxLabel i)
          (by rw [nextMonth_day]; exact hd)
          (fun j h1 h2 hlj => by
            have hj := idxLabel_inj i j (by omega) (by omega) hlj
            omega)]
        rw [hcur, ← idxLabel_monthIdx cur, lookupD_accrue_self]
      · rw [ih (by rw [nextMonth_day]; exact hd) (by omega)]
        rw [lookupD_accrue_other t (formatMonth cur.year cur.month) (idxLabel i) price
          (by
            rw [← idxLabel_monthIdx cur]
            intro hlj
            exact hcur (idxLabel_inj i (monthIdx cur) (by omega) (by omega) hlj))]
  | case2 cur t h =>
      exfalso
      rw [lex_iff_monthIdx cur stop hd] at h
      omega

theorem nodupKeys_monthWalk (price : ℚ) (stop : Date) (cur : Date) (t : Totals)
    (h : (keys t).Nodup) : (keys (monthWalk price stop cur t)).Nodup := by
  revert h
  induction cur, t using monthWalk.induct price stop with
  | case1 cur t hg ih =>
      intro h
      rw [monthWalk, dif_pos hg]
      exact ih (keys_accrue_nodup _ _ _ h)
  | case2 cur t hg =>
      intro h
      rw [monthWalk, dif_neg hg]
      exact h

theorem goodKeys_monthWalk (price : ℚ) (stop : Date) (cur : Date) (t : Totals)
    (h : ∀ p ∈ t, goodKey p.1) : ∀ p ∈ monthWalk price stop cur t, goodKey p.1 := by
  revert h
  induction cur, t using monthWalk.induct price stop with
  | case1 cur t hg ih =>
      intro h
      rw [monthWalk, dif_pos hg]
      exact ih (goodKeys_accrue _ _ _ h
        ⟨cur.year, cur.month, cur.month_pos, cur.month_le, rfl⟩)
  | case2 cur t hg =>
      intro h
      rw [monthWalk, dif_neg hg]
      exact h

theorem monthWalkCount_eq (stop cur : Date) (hd : cur.day = stop.day) :
    monthWalkCount stop cur = monthIdx stop + 1 - monthIdx cur := by
  revert hd
  induction cur using monthWalkCount.induct stop with
  | case1 cur h ih =>
      intro hd
      rw [monthWalkCount, dif_pos h]
      have hn := monthIdx_nextMonth cur
      have hidx := (lex_iff_monthIdx cur stop hd).mp h
      rw [ih (by rw [nextMonth_day]; exact hd)]
      omega
  | case2 cur h =>
      intro hd
      rw [monthWalkCount, dif_neg h]
      have hidx : ¬ monthIdx cur ≤ monthIdx stop :=
        fun hle => h ((lex_iff_monthIdx cur stop hd).mpr hle)
      omega

theorem nodupKeys_accrueItem (t : Totals) (it : MarketItem)
    (h : (keys t).Nodup) : (keys (accrueItem t it)).Nodup :=
  nodupKeys_monthWalk _ _ _ _ h

theorem goodKeys_accrueItem (t : Totals) (it : MarketItem)
    (h : ∀ p ∈ t, goodKey p.1) : ∀ p ∈ accrueItem t it, goodKey p.1 :=
  goodKeys_monthWalk _ _ _ _ h

theorem nodupKeys_fold_accrueItem (items : List MarketItem) (t : Totals)
    (h : (keys t).Nodup) : (keys (items.foldl accrueItem t)).Nodup := by
  induction items generalizing t with
  | nil => exact h
  | cons it rest ih =>
      rw [List.foldl_cons]
      exact ih _ (nodupKeys_accrueItem t it h)

theorem goodKeys_fold_accrueItem (items : List MarketItem) (t : Totals)
    (h : ∀ p ∈ t, goodKey p.1) : ∀ p ∈ items.foldl accrueItem t, goodKey p.1 := by
  induction items generalizing t with
  | nil => exact h
  | cons it rest ih =>
      rw [List.foldl_cons]
      exact ih _ (goodKeys_accrueItem t it h)

/-! ### Claim C1: per-record accrual across the spanned months -/

/-- C1: for a record with `k = monthIdx(acted_on) - monthIdx(listed_on) + 1 ≥ 1`,
processing the record adds its full, unprorated price to exactly the buckets
of the `k` months from the month of `listed_on` through the month of
`acted_on` (each such bucket's count grows by exactly 1), and leaves every
other bucket untouched. -/
theorem accrual_per_record (item : MarketItem) (totals : Totals)
    (hk : (1 : ℤ) ≤ (monthIdx item.acted_on : ℤ) - (monthIdx item.listed_on : ℤ) + 1) :
    (∀ i, monthIdx item.listed_on ≤ i → i ≤ monthIdx item.acted_on →
        lookupD (accrueItem totals item) (idxLabel i)
          = ((lookupD totals (idxLabel i)).1 + item.price,
             (lookupD totals (idxLabel i)).2 + 1)) ∧
    (∀ s : String,
        (∀ i, monthIdx item.listed_on ≤ i → i ≤ monthIdx item.acted_on → s ≠ idxLabel i) →
        lookupD (accrueItem totals item) s = lookupD totals s) := by
  constructor
  · intro i h1 h2
    unfold accrueItem
    exact monthWalk_bump item.price _ _ totals
      (by rw [firstOfMonth_day, firstOfMonth_day]) i
      (by rw [firstOfMonth_monthIdx]; exact h1)
      (by rw [firstOfMonth_monthIdx]; exact h2)
  · intro s hs
    unfold accrueItem
    exact monthWalk_unchanged item.price _ _ totals s
      (by rw [firstOfMonth_day, firstOfMonth_day])
      (fun i hi1 hi2 => hs i (by rw [firstOfMonth_monthIdx] at hi1; exact hi1)
        (by rw [firstOfMonth_monthIdx] at hi2; exact hi2))

/-- Witness for C1 at a record spanning January–March 2024. -/
theorem accrual_per_record_witness :
    ((1 : ℤ) ≤ (monthIdx itemKey.acted_on : ℤ) - (monthIdx itemKey.listed_on : ℤ) + 1) ∧
    lookupD (accrueItem [] itemKey) (idxLabel (monthIdx itemKey.listed_on))
      = ((lookupD [] (idxLabel (monthIdx itemKey.listed_on))).1 + itemKey.price,
         (lookupD [] (idxLabel (monthIdx itemKey.listed_on))).2 + 1) :=
  ⟨by decide, (accrual_per_record itemKey [] (by decide)).1
    (monthIdx itemKey.listed_on) le_rfl (by decide)⟩

/-! ### Claim C2: a record acted on before it was listed -/

theorem natDigits_2024 : natDigits 2024 = ['2', '0', '2', '4'] := by
  rw [natDigits, if_neg (by norm_num)]
  rw [show (2024 : Nat) / 10 = 202 from by norm_num,
    show (2024 : Nat) % 10 = 4 from by norm_num]
  rw [natDigits, if_neg (by norm_num)]
  rw [show (202 : Nat) / 10 = 20 from by norm_num,
    show (202 : Nat) % 10 = 2 from by norm_num]
  rw [natDigits, if_neg (by norm_num)]
  rw [show (20 : Nat) / 10 = 2 from by norm_num,
    show (20 : Nat) % 10 = 0 from by norm_num]
  rw [natDigits, if_pos (by norm_num)]
  decide

theorem formatMonth_2024Jan : formatMonth 2024 1 = "2024-Jan" := by
  unfold formatMonth
  rw [natDigits_2024]
  decide

/-- C2 counterexample: `itemBad`'s `acted_on` (2024-01-01) is strictly
before its `listed_on` (2024-01-15), yet the record contributes to one
month bucket, not zero. -/
theorem same_month_reversed_counterexample :
    Date.lexLt itemBad.acted_on itemBad.listed_on ∧
      get_total_price_by_month [itemBad] = [("2024-Jan", ((10 : ℚ), 1))] := by
  refine ⟨by decide, ?_⟩
  unfold get_total_price_by_month
  rw [List.foldl_cons, List.foldl_nil]
  have h1 : accrueItem [] itemBad = [("2024-Jan", ((10 : ℚ), 1))] := by
    unfold accrueItem
    rw [monthWalk, dif_pos (by decide)]
    rw [monthWalk, dif_neg (by decide)]
    show accrue [] (formatMonth 2024 1) 10 = [("2024-Jan", ((10 : ℚ), 1))]
    rw [formatMonth_2024Jan]
    show ([] : Totals) ++ [("2024-Jan", ((0 : ℚ) + 10, 0 + 1))]
      = [("2024-Jan", ((10 : ℚ), 1))]
    norm_num
  rw [h1, List.mergeSort_singleton]

/-- C2 as amended: a record whose `acted_on` falls in a strictly earlier
calendar month than its `listed_on` (lower `year*12 + month` index)
contributes to zero month buckets: processing it returns the buckets
unchanged. -/
theorem earlier_month_no_contribution (item : MarketItem) (totals : Totals)
    (h : monthIdx item.acted_on < monthIdx item.listed_on) :
    accrueItem totals item = totals := by
  unfold accrueItem
  rw [monthWalk, dif_neg]
  intro hlex
  rw [lex_iff_monthIdx _ _ (by rw [firstOfMonth_day, firstOfMonth_day])] at hlex
  rw [firstOfMonth_monthIdx, firstOfMonth_monthIdx] at hlex
  omega

/-- Witness for the amended C2: a record acted on in January but listed in
February contributes nothing. -/
theorem earlier_month_no_contribution_witness :
    monthIdx itemEarlier.acted_on < monthIdx itemEarlier.listed_on ∧
      accrueItem [] itemEarlier = [] :=
  ⟨by decide, earlier_month_no_contribution itemEarlier [] (by decide)⟩

/-! ### Claim C8: month labels and the four-digit `%Y` of `strptime` -/

theorem natDigits_four (y : Nat) (hy1 : 1000 ≤ y) (hy2 : y ≤ 9999) :
    natDigits y = [digitChar (y / 1000), digitChar (y / 100 % 10),
      digitChar (y / 10 % 10), digitChar (y % 10)] := by
  rw [natDigits, if_neg (by omega)]
  rw [natDigits, if_neg (by omega)]
  rw [natDigits, if_neg (by omega)]
  rw [natDigits, if_pos (by omega)]
  have e1 : y / 10 / 10 = y / 100 := by omega
  have e2 : y / 100 / 10 = y / 1000 := by omega
  rw [e1, e2]
  rfl

theorem natDigits_999 : natDigits 999 = ['9', '9', '9'] := by
  rw [natDigits, if_neg (by norm_num)]
  rw [show (999 : Nat) / 10 = 99 from by norm_num,
    show (999 : Nat) % 10 = 9 from by norm_num]
  rw [natDigits, if_neg (by norm_num)]
  rw [show (99 : Nat) / 10 = 9 from by norm_num,
    show (99 : Nat) % 10 = 9 from by norm_num]
  rw [natDigits, if_pos (by norm_num)]
  decide

theorem formatMonth_999Jan : formatMonth 999 1 = "999-Jan" := by
  unfold formatMonth
  rw [natDigits_999]
  decide

/-- C8 counterexample: for the rendered pair (999, January) — the label
`"999-Jan"` really is created as a bucket key by the month accumulation —
parsing the label back with `%Y-%b` fails, because `strptime`'s `%Y`
requires exactly four digits and the unpadded year 999 renders only
three. -/
theorem monthLabel_roundTrip_counterexample :
    formatMonth 999 1 = "999-Jan" ∧
    accrueItem [] item999 = [("999-Jan", ((10 : ℚ), 1))] ∧
    strptimeYb "999-Jan" = none := by
  refine ⟨formatMonth_999Jan, ?_, by decide⟩
  unfold accrueItem
  rw [monthWalk, dif_pos (by decide)]
  rw [monthWalk, dif_neg (by decide)]
  show accrue [] (formatMonth 999 1) 10 = [("999-Jan", ((10 : ℚ), 1))]
  rw [formatMonth_999Jan]
  show ([] : Totals) ++ [("999-Jan", ((0 : ℚ) + 10, 0 + 1))]
    = [("999-Jan", ((10 : ℚ), 1))]
  norm_num

/-- C8 as amended: for every (year, month) pair whose year has four digits
(`1000 ≤ year ≤ 9999` — every year a `datetime` can carry that also
re-parses), rendering via `%Y-%b` and parsing back with `strptime`'s
`%Y-%b` yields the same pair; years below 1000 render unpadded and fail to
re-parse. -/
theorem monthLabel_roundTrip_fourDigit (y m : Nat) (hy1 : 1000 ≤ y) (hy2 : y ≤ 9999)
    (h1 : 1 ≤ m) (h2 : m ≤ 12) :
    strptimeYb (formatMonth y m) = some (y, m) := by
  have hd : (formatMonth y m).data
      = digitChar (y / 1000) :: digitChar (y / 100 % 10) :: digitChar (y / 10 % 10)
        :: digitChar (y % 10) :: '-' :: (monthAbbrev m).data := by
    rw [formatMonth_data, natDigits_four y hy1 hy2]
    rfl
  unfold strptimeYb
  rw [hd]
  simp only [strptimeChars]
  rw [if_true]
  rw [digitVal_digitChar _ (by omega), digitVal_digitChar _ (by omega),
    digitVal_digitChar _ (by omega), digitVal_digitChar _ (by omega)]
  have hmk : String.mk (monthAbbrev m).data = monthAbbrev m := by
    cases monthAbbrev m
    rfl
  rw [hmk, abbrevToMonth_monthAbbrev m h1 h2]
  show some ((((y / 1000) * 10 + y / 100 % 10) * 10 + y / 10 % 10) * 10 + y % 10, m)
    = some (y, m)
  simp only [Option.some.injEq, Prod.mk.injEq]
  exact ⟨by omega, trivial⟩

/-- Witness for the amended C8 at (2024, January). -/
theorem monthLabel_roundTrip_fourDigit_witness :
    1000 ≤ 2024 ∧ 2024 ≤ 9999 ∧ 1 ≤ 1 ∧ 1 ≤ 12 ∧
      strptimeYb (formatMonth 2024 1) = some (2024, 1) :=
  ⟨by norm_num, by norm_num, le_rfl, by norm_num,
    monthLabel_roundTrip_fourDigit 2024 1 (by norm_num) (by norm_num) le_rfl (by norm_num)⟩

/-- For every record, the per-record while loop performs exactly
`monthIdx(acted_on) + 1 - monthIdx(listed_on)` iterations (truncated at
zero), a finite number. -/
theorem monthWalkCount_closed_form (item : MarketItem) :
    monthWalkCount item.acted_on.firstOfMonth item.listed_on.firstOfMonth
      = monthIdx item.acted_on + 1 - monthIdx item.listed_on := by
  rw [monthWalkCount_eq _ _ (by rw [firstOfMonth_day, firstOfMonth_day])]
  rw [firstOfMonth_monthIdx, firstOfMonth_monthIdx]

/-! ### Claim C9: termination and the `datetime.MAXYEAR` raise -/

theorem monthWalkE_ok (price : ℚ) (stop cur : Date) (t : Totals)
    (hd : cur.day = stop.day)
    (hsafe : monthIdx stop < 12 * maxYear + 12 ∨ monthIdx stop < monthIdx cur) :
    monthWalkE price stop cur t = Except.ok (monthWalk price stop cur t) := by
  induction cur, t using monthWalkE.induct price stop with
  | case1 cur t h herr =>
      exfalso
      have hidx := (lex_iff_monthIdx cur stop hd).mp h
      have h2 := cur.month_le
      unfold monthIdx at hidx hsafe
      unfold maxYear at hsafe herr
      omega
  | case2 cur t h herr ih =>
      rw [monthWalkE, dif_pos h, dif_neg herr]
      rw [monthWalk, dif_pos h]
      exact ih (by rw [nextMonth_day]; exact hd)
        (by
          rcases hsafe with hs | hs
          · exact Or.inl hs
          · exact absurd ((lex_iff_monthIdx cur stop hd).mp h) (by omega))
  | case3 cur t h =>
      rw [monthWalkE, dif_neg h, monthWalk, dif_neg h]

theorem accrueItemE_ok (t : Totals) (item : MarketItem)
    (hy : item.acted_on.year ≤ maxYear)
    (hsafe : ¬(monthIdx item.listed_on ≤ monthIdx item.acted_on ∧
      monthIdx item.acted_on = 12 * maxYear + 12)) :
    accrueItemE t item = Except.ok (accrueItem t item) := by
  unfold accrueItemE accrueItem
  apply monthWalkE_ok
  · rw [firstOfMonth_day, firstOfMonth_day]
  · rw [firstOfMonth_monthIdx, firstOfMonth_monthIdx]
    have h2 := item.acted_on.month_le
    have h1 := item.acted_on.month_pos
    simp only [monthIdx, maxYear] at hy hsafe ⊢
    omega

theorem accrueAllE_ok (items : List MarketItem) (t : Totals)
    (hsafe : ∀ it ∈ items, it.acted_on.year ≤ maxYear ∧
      ¬(monthIdx it.listed_on ≤ monthIdx it.acted_on ∧
        monthIdx it.acted_on = 12 * maxYear + 12)) :
    accrueAllE t items = Except.ok (items.foldl accrueItem t) := by
  induction items generalizing t with
  | nil => rfl
  | cons it rest ih =>
      have hit := hsafe it (List.mem_cons_self it rest)
      rw [List.foldl_cons]
      simp only [accrueAllE]
      rw [accrueItemE_ok t it hit.1 hit.2]
      exact ih _ (fun x hx => hsafe x (List.mem_cons_of_mem it hx))

/-- C9 counterexample: a valid record (both dates within `datetime`'s
year range) whose span ends in December 9999 makes the month advance
raise `ValueError`, so `get_total_price_by_month` terminates by exception
and produces no result. -/
theorem maxYear_raise_counterexample :
    itemMaxYear.listed_on.year ≤ maxYear ∧ itemMaxYear.acted_on.year ≤ maxYear ∧
      get_total_price_by_monthE [itemMaxYear] = Except.error () := by
  refine ⟨by decide, by decide, ?_⟩
  have h1 : accrueItemE [] itemMaxYear = Except.error () := by
    unfold accrueItemE
    rw [monthWalkE, dif_pos (by decide), dif_pos (by decide)]
  have h2 : accrueAllE [] [itemMaxYear] = Except.error () := by
    simp only [accrueAllE, h1]
  unfold get_total_price_by_monthE
  rw [h2]

/-- C9 as amended: `get_total_price` and `get_total_price_by_name` are
total; the per-record while loop always performs exactly
`monthIdx(acted_on) + 1 - monthIdx(listed_on)` iterations (truncated at
zero), a finite number; and `get_total_price_by_month` terminates and
produces a result provided no record's span runs through December of
`datetime.MAXYEAR` (9999) — where the month advance raises `ValueError` —
and every record's years stay in the four-digit range whose labels the
final sort can re-parse. -/
theorem by_month_total_on_safe_inputs (items : List MarketItem)
    (hsafe : ∀ it ∈ items, 1000 ≤ it.listed_on.year ∧ it.acted_on.year ≤ maxYear ∧
      ¬(monthIdx it.listed_on ≤ monthIdx it.acted_on ∧
        monthIdx it.acted_on = 12 * maxYear + 12)) :
    get_total_price_by_monthE items = Except.ok (get_total_price_by_month items) ∧
    ∀ it ∈ items, monthWalkCount it.acted_on.firstOfMonth it.listed_on.firstOfMonth
      = monthIdx it.acted_on + 1 - monthIdx it.listed_on := by
  constructor
  · unfold get_total_price_by_monthE get_total_price_by_month
    rw [accrueAllE_ok items [] (fun it hit => ⟨(hsafe it hit).2.1, (hsafe it hit).2.2⟩)]
  · intro it hit
    exact monthWalkCount_closed_form it

/-- Witness for the amended C9 at a record spanning January–March 2024. -/
theorem by_month_total_on_safe_inputs_witness :
    (∀ it ∈ [itemKey], 1000 ≤ it.listed_on.year ∧ it.acted_on.year ≤ maxYear ∧
      ¬(monthIdx it.listed_on ≤ monthIdx it.acted_on ∧
        monthIdx it.acted_on = 12 * maxYear + 12)) ∧
    get_total_price_by_monthE [itemKey]
      = Except.ok (get_total_price_by_month [itemKey]) :=
  ⟨by decide, (by_month_total_on_safe_inputs [itemKey] (by decide)).1⟩

/-! ### By-name accumulation -/

theorem sumPricesName_cons_self (it : MarketItem) (rest : List MarketItem) (n : String)
    (hn : it.name = n) :
    sumPricesName (it :: rest) n = it.price + sumPricesName rest n := by
  simp [sumPricesName, List.filter_cons, hn]

theorem sumPricesName_cons_other (it : MarketItem) (rest : List MarketItem) (n : String)
    (hn : ¬ it.name = n) :
    sumPricesName (it :: rest) n = sumPricesName rest n := by
  simp [sumPricesName, List.filter_cons, hn]

theorem countName_cons_self (it : MarketItem) (rest : List MarketItem) (n : String)
    (hn : it.name = n) :
    countName (it :: rest) n = countName rest n + 1 := by
  simp [countName, List.filter_cons, hn]

theorem countName_cons_other (it : MarketItem) (rest : List MarketItem) (n : String)
    (hn : ¬ it.name = n) :
    countName (it :: rest) n = countName rest n := by
  simp [countName, List.filter_cons, hn]

theorem lookupTot_addName_other (t : Totals) (it : MarketItem) (n : String)
    (hn : ¬ it.name = n) : lookupTot (addName t it) n = lookupTot t n := by
  unfold addName
  cases h : lookupTot t it.name with
  | some tc =>
      simp only []
      exact lookupTot_setKey_other _ _ _ _ (fun he => hn he.symm)
  | none =>
      simp only []
      rw [lookupTot_append_single]
      cases h' : lookupTot t n <;> simp [hn]

theorem sumPricesName_append_self (l : List MarketItem) (it : MarketItem)
    (hn : it.name = n) :
    sumPricesName (l ++ [it]) n = sumPricesName l n + it.price := by
  simp [sumPricesName, List.filter_append, hn]

theorem countName_append_self (l : List MarketItem) (it : MarketItem)
    (hn : it.name = n) :
    countName (l ++ [it]) n = countName l n + 1 := by
  simp [countName, List.filter_append, hn]

theorem sumPricesName_append_other (l : List MarketItem) (it : MarketItem)
    (hn : ¬ it.name = n) :
    sumPricesName (l ++ [it]) n = sumPricesName l n := by
  simp [sumPricesName, List.filter_append, hn]

theorem countName_append_other (l : List MarketItem) (it : MarketItem)
    (hn : ¬ it.name = n) :
    countName (l ++ [it]) n = countName l n := by
  simp [countName, List.filter_append, hn]

theorem lookupTot_fold_addName (items : List MarketItem) (n : String) :
    lookupTot (items.foldl addName []) n =
      if countName items n = 0 then none
      else some (sumPricesName items n, countName items n) := by
  induction items using List.reverseRecOn with
  | nil => simp [lookupTot_nil, countName]
  | append_singleton l it ih =>
      rw [List.foldl_append, List.foldl_cons, List.foldl_nil]
      by_cases hn : it.name = n
      · subst hn
        rw [sumPricesName_append_self l it rfl, countName_append_self l it rfl,
          if_neg (Nat.succ_ne_zero _)]
        cases h : lookupTot (l.foldl addName []) it.name with
        | some tc =>
            rw [h] at ih
            by_cases h0 : countName l it.name = 0
            · rw [if_pos h0] at ih
              exact absurd ih (by simp)
            · rw [if_neg h0] at ih
              have htc := Option.some.inj ih
              subst htc
              have hstep : addName (l.foldl addName []) it
                  = setKey (l.foldl addName []) it.name
                      ((sumPricesName l it.name, countName l it.name).1 + it.price,
                       (sumPricesName l it.name, countName l it.name).2 + 1) := by
                simp only [addName]
                rw [h]
              rw [hstep, lookupTot_setKey_self, h]
              rfl
        | none =>
            rw [h] at ih
            by_cases h0 : countName l it.name = 0
            · have hS0 : sumPricesName l it.name = 0 := by
                unfold countName at h0
                rw [List.length_eq_zero] at h0
                unfold sumPricesName
                rw [h0]
                simp
              have hstep : addName (l.foldl addName []) it
                  = l.foldl addName [] ++ [(it.name, (it.price, 1))] := by
                simp only [addName]
                rw [h]
              rw [hstep, lookupTot_append_single, h]
              simp [hS0, h0]
            · rw [if_neg h0] at ih
              exact absurd ih (by simp)
      · rw [sumPricesName_append_other l it hn, countName_append_other l it hn,
          lookupTot_addName_other _ it n hn, ih]

theorem nodupKeys_addName (t : Totals) (it : MarketItem)
    (h : (keys t).Nodup) : (keys (addName t it)).Nodup := by
  unfold addName
  cases hk : lookupTot t it.name with
  | some tc =>
      simp only []
      rw [keys_setKey]
      exact h
  | none =>
      simp only []
      rw [keys_append_single]
      refine List.Nodup.append h (List.nodup_singleton _) ?_
      intro a ha hb
      rw [List.mem_singleton] at hb
      have ha' : a = it.name := by simpa using hb
      exact (lookupTot_eq_none_iff t it.name).mp hk (ha' ▸ ha)

theorem nodupKeys_fold_addName (items : List MarketItem) (t : Totals)
    (h : (keys t).Nodup) : (keys (items.foldl addName t)).Nodup := by
  induction items generalizing t with
  | nil => exact h
  | cons it rest ih =>
      rw [List.foldl_cons]
      exact ih _ (nodupKeys_addName t it h)

theorem countName_ne_zero_iff (items : List MarketItem) (n : String) :
    countName items n ≠ 0 ↔ ∃ it ∈ items, it.name = n := by
  unfold countName
  constructor
  · intro h
    have hpos : 0 < (items.filter fun it => it.name == n).length := Nat.pos_of_ne_zero h
    rcases List.exists_mem_of_length_pos hpos with ⟨it, hit⟩
    rcases List.mem_filter.mp hit with ⟨hmem, hpred⟩
    exact ⟨it, hmem, by simpa using hpred⟩
  · rintro ⟨it, hmem, hname⟩ h0
    rw [List.length_eq_zero] at h0
    have : it ∈ items.filter fun it => it.name == n :=
      List.mem_filter.mpr ⟨hmem, by simp [hname]⟩
    simp [h0] at this

/-! ### Claim C3: the by-name summary maps each name to (sum, count) -/

/-- C3: a pair `(n, v)` is an entry of `get_total_price_by_name items`
exactly when some record is named `n` and `v` is (the sum of the prices of
the records named `n`, their number); names that never occur are absent. -/
theorem by_name_entries (items : List MarketItem) (n : String) (v : ℚ × Nat) :
    (n, v) ∈ get_total_price_by_name items ↔
      ((∃ it ∈ items, it.name = n) ∧ v = (sumPricesName items n, countName items n)) := by
  unfold get_total_price_by_name
  rw [List.Perm.mem_iff (List.mergeSort_perm _ _)]
  rw [mem_iff_lookupTot _ (nodupKeys_fold_addName items [] (by simp [keys])) n v]
  rw [lookupTot_fold_addName items n]
  by_cases h0 : countName items n = 0
  · rw [if_pos h0]
    constructor
    · intro h
      exact absurd h (by simp)
    · rintro ⟨⟨it, hmem, hname⟩, _⟩
      exact absurd h0 ((countName_ne_zero_iff items n).mpr ⟨it, hmem, hname⟩)
  · rw [if_neg h0]
    simp only [Option.some.injEq]
    constructor
    · intro hv
      exact ⟨(countName_ne_zero_iff items n).mp h0, hv.symm⟩
    · rintro ⟨_, hv⟩
      exact hv.symm

/-! ### Column sums of the by-name summary (C10; exact-arithmetic form of C7) -/

theorem sum_prices_setKey (t : Totals) (k : String) (v tc : ℚ × Nat)
    (hnd : (keys t).Nodup) (h : lookupTot t k = some tc) :
    ((setKey t k v).map fun p => p.2.1).sum + tc.1
      = (t.map fun p => p.2.1).sum + v.1 := by
  induction t with
  | nil => exact absurd h (by simp [lookupTot_nil])
  | cons p rest ih =>
      rw [keys_cons, List.nodup_cons] at hnd
      rw [lookupTot_cons] at h
      rw [setKey_cons]
      by_cases hp : p.1 = k
      · rw [if_pos hp] at h ⊢
        have htc : tc = p.2 := by injection h with h'; exact h'.symm
        rw [setKey_of_absent rest k v
          ((lookupTot_eq_none_iff rest k).mpr (hp ▸ hnd.1))]
        simp only [List.map_cons, List.sum_cons, htc]
        ring
      · rw [if_neg hp] at h ⊢
        simp only [List.map_cons, List.sum_cons]
        have := ih hnd.2 h
        linarith

theorem sum_counts_setKey (t : Totals) (k : String) (v tc : ℚ × Nat)
    (hnd : (keys t).Nodup) (h : lookupTot t k = some tc) :
    ((setKey t k v).map fun p => p.2.2).sum + tc.2
      = (t.map fun p => p.2.2).sum + v.2 := by
  induction t with
  | nil => exact absurd h (by simp [lookupTot_nil])
  | cons p rest ih =>
      rw [keys_cons, List.nodup_cons] at hnd
      rw [lookupTot_cons] at h
      rw [setKey_cons]
      by_cases hp : p.1 = k
      · rw [if_pos hp] at h ⊢
        have htc : tc = p.2 := by injection h with h'; exact h'.symm
        rw [setKey_of_absent rest k v
          ((lookupTot_eq_none_iff rest k).mpr (hp ▸ hnd.1))]
        simp only [List.map_cons, List.sum_cons, htc]
        omega
      · rw [if_neg hp] at h ⊢
        simp only [List.map_cons, List.sum_cons]
        have := ih hnd.2 h
        omega

theorem sum_prices_addName (t : Totals) (it : MarketItem) (hnd : (keys t).Nodup) :
    ((addName t it).map fun p => p.2.1).sum = (t.map fun p => p.2.1).sum + it.price := by
  unfold addName
  cases h : lookupTot t it.name with
  | some tc =>
      simp only []
      have := sum_prices_setKey t it.name (tc.1 + it.price, tc.2 + 1) tc hnd h
      simp only [] at this
      linarith
  | none =>
      simp only []
      rw [List.map_append, List.sum_append]
      simp

theorem sum_counts_addName (t : Totals) (it : MarketItem) (hnd : (keys t).Nodup) :
    ((addName t it).map fun p => p.2.2).sum = (t.map fun p => p.2.2).sum + 1 := by
  unfold addName
  cases h : lookupTot t it.name with
  | some tc =>
      simp only []
      have := sum_counts_setKey t it.name (tc.1 + it.price, tc.2 + 1) tc hnd h
      simp only [] at this
      omega
  | none =>
      simp only []
      rw [List.map_append, List.sum_append]
      simp

theorem sum_prices_fold_addName (items : List MarketItem) (t : Totals)
    (hnd : (keys t).Nodup) :
    ((items.foldl addName t).map fun p => p.2.1).sum
      = (t.map fun p => p.2.1).sum + get_total_price items := by
  induction items generalizing t with
  | nil => simp [get_total_price]
  | cons it rest ih =>
      rw [List.foldl_cons, ih _ (nodupKeys_addName t it hnd), sum_prices_addName t it hnd]
      unfold get_total_price
      simp only [List.map_cons, List.sum_cons]
      ring

theorem sum_counts_fold_addName (items : List MarketItem) (t : Totals)
    (hnd : (keys t).Nodup) :
    ((items.foldl addName t).map fun p => p.2.2).sum
      = (t.map fun p => p.2.2).sum + items.length := by
  induction items generalizing t with
  | nil => simp
  | cons it rest ih =>
      rw [List.foldl_cons, ih _ (nodupKeys_addName t it hnd), sum_counts_addName t it hnd]
      simp only [List.length_cons]
      omega

/-- Under the exact-rational price model, summing the total-price column
of the by-name summary yields `get_total_price`.  The source sums IEEE-754
doubles, whose addition is not associative, so this identity is an
idealization there: the two sides associate the same additions
differently. -/
theorem by_name_total_price (items : List MarketItem) :
    ((get_total_price_by_name items).map fun p => p.2.1).sum = get_total_price items := by
  unfold get_total_price_by_name
  have hperm := List.mergeSort_perm (items.foldl addName [])
    (fun a b => decide (b.2.1 ≤ a.2.1))
  rw [List.Perm.sum_eq (hperm.map (fun p => p.2.1))]
  rw [sum_prices_fold_addName items [] (by simp [keys])]
  simp

theorem counts_pos_addName (t : Totals) (it : MarketItem)
    (h : ∀ p ∈ t, 1 ≤ p.2.2) : ∀ p ∈ addName t it, 1 ≤ p.2.2 := by
  unfold addName
  cases hl : lookupTot t it.name with
  | some tc =>
      simp only []
      intro p hp
      rcases List.mem_map.mp hp with ⟨q, hq, rfl⟩
      by_cases hqk : q.1 = it.name
      · simp [hqk]
      · simpa [hqk] using h q hq
  | none =>
      simp only []
      intro p hp
      rcases List.mem_append.mp hp with hp | hp
      · exact h p hp
      · rw [List.mem_singleton] at hp
        subst hp
        exact le_refl 1

theorem counts_pos_fold_addName (items : List MarketItem) (t : Totals)
    (h : ∀ p ∈ t, 1 ≤ p.2.2) : ∀ p ∈ items.foldl addName t, 1 ≤ p.2.2 := by
  induction items generalizing t with
  | nil => exact h
  | cons it rest ih =>
      rw [List.foldl_cons]
      exact ih _ (counts_pos_addName t it h)

/-- C10: the count column of the by-name summary sums to the number of
records, and every count is at least 1. -/
theorem by_name_count_column (items : List MarketItem) :
    ((get_total_price_by_name items).map fun p => p.2.2).sum = items.length ∧
    ∀ p ∈ get_total_price_by_name items, 1 ≤ p.2.2 := by
  constructor
  · unfold get_total_price_by_name
    have hperm := List.mergeSort_perm (items.foldl addName [])
      (fun a b => decide (b.2.1 ≤ a.2.1))
    rw [List.Perm.sum_eq (hperm.map (fun p => p.2.2))]
    rw [sum_counts_fold_addName items [] (by simp [keys])]
    simp
  · intro p hp
    unfold get_total_price_by_name at hp
    exact counts_pos_fold_addName items []
      (fun p hp => absurd hp (List.not_mem_nil p)) p
      ((List.mergeSort_perm _ _).subset hp)

/-! ### Claim C4: by-name output is sorted by total price descending -/

/-- C4: adjacent entries of the by-name summary are in weakly decreasing
order of total price. -/
theorem by_name_sorted_desc (items : List MarketItem) :
    List.Chain' (fun a b => b.2.1 ≤ a.2.1) (get_total_price_by_name items) := by
  apply List.Pairwise.chain'
  have htrans : ∀ (a b c : String × (ℚ × Nat)),
      decide (b.2.1 ≤ a.2.1) = true → decide (c.2.1 ≤ b.2.1) = true →
      decide (c.2.1 ≤ a.2.1) = true := by
    intro a b c h1 h2
    simp only [decide_eq_true_eq] at h1 h2 ⊢
    exact le_trans h2 h1
  have htotal : ∀ (a b : String × (ℚ × Nat)),
      (decide (b.2.1 ≤ a.2.1) || decide (a.2.1 ≤ b.2.1)) = true := by
    intro a b
    simp only [Bool.or_eq_true, decide_eq_true_eq]
    exact le_total b.2.1 a.2.1
  have hp := List.sorted_mergeSort htrans htotal (items.foldl addName [])
  unfold get_total_price_by_name
  exact hp.imp (fun h => by simpa using h)

/-! ### Claim C5: by-month output is sorted chronologically -/

/-- C5: every key of the by-month summary parses as a (year, month) pair,
and adjacent entries are in strictly increasing chronological order of
their parsed keys — independent of insertion order and magnitudes. -/
theorem by_month_sorted_chrono (items : List MarketItem) :
    (∀ p ∈ get_total_price_by_month items,
        ∃ y m, 1 ≤ m ∧ m ≤ 12 ∧ parseMonth p.1 = some (y, m)) ∧
    List.Chain' (fun a b => ymLt (monthKey a.1) (monthKey b.1))
      (get_total_price_by_month items) := by
  have hperm := List.mergeSort_perm (items.foldl accrueItem [])
    (fun a b => ymLe (monthKey a.1) (monthKey b.1))
  have hgood : ∀ p ∈ items.foldl accrueItem [], goodKey p.1 :=
    goodKeys_fold_accrueItem items [] (fun p hp => absurd hp (List.not_mem_nil p))
  have hgood' : ∀ p ∈ get_total_price_by_month items, goodKey p.1 := by
    intro p hp
    unfold get_total_price_by_month at hp
    exact hgood p (hperm.subset hp)
  constructor
  · intro p hp
    rcases hgood' p hp with ⟨y, m, h1, h2, hk⟩
    exact ⟨y, m, h1, h2, by rw [hk]; exact parseMonth_formatMonth y m h1 h2⟩
  · apply List.Pairwise.chain'
    have hnd : ((items.foldl accrueItem []).map (fun p => p.1)).Nodup :=
      nodupKeys_fold_accrueItem items [] (by simp [keys])
    have hndout : ((get_total_price_by_month items).map fun p => p.1).Nodup := by
      unfold get_total_price_by_month
      exact ((hperm.map (fun p => p.1)).nodup_iff).mpr hnd
    clear hgood
    have htrans : ∀ (a b c : String × (ℚ × Nat)),
        ymLe (monthKey a.1) (monthKey b.1) = true →
        ymLe (monthKey b.1) (monthKey c.1) = true →
        ymLe (monthKey a.1) (monthKey c.1) = true := by
      intro a b c h1 h2
      unfold ymLe at h1 h2 ⊢
      simp only [decide_eq_true_eq] at h1 h2 ⊢
      omega
    have htotal : ∀ (a b : String × (ℚ × Nat)),
        (ymLe (monthKey a.1) (monthKey b.1) || ymLe (monthKey b.1) (monthKey a.1)) = true := by
      intro a b
      unfold ymLe
      simp only [Bool.or_eq_true, decide_eq_true_eq]
      omega
    have hpw : (get_total_price_by_month items).Pairwise
        (fun a b => ymLe (monthKey a.1) (monthKey b.1) = true) := by
      unfold get_total_price_by_month
      exact List.sorted_mergeSort htrans htotal _
    have hne : (get_total_price_by_month items).Pairwise (fun a b => a.1 ≠ b.1) :=
      List.pairwise_map.mp hndout
    refine List.Pairwise.imp_of_mem ?_ (hpw.and hne)
    intro a b ha hb hr
    rcases hr with ⟨hle, hneq⟩
    rcases hgood' a ha with ⟨ya, ma, ha1, ha2, hka⟩
    rcases hgood' b hb with ⟨yb, mb, hb1, hb2, hkb⟩
    have hma : monthKey a.1 = (ya, ma) := by
      unfold monthKey
      rw [hka, parseMonth_formatMonth ya ma ha1 ha2]
    have hmb : monthKey b.1 = (yb, mb) := by
      unfold monthKey
      rw [hkb, parseMonth_formatMonth yb mb hb1 hb2]
    rw [hma, hmb] at hle ⊢
    unfold ymLe at hle
    simp only [decide_eq_true_eq] at hle
    have hpairs : ¬ (ya = yb ∧ ma = mb) := by
      rintro ⟨h1, h2⟩
      exact hneq (by rw [hka, hkb, h1, h2])
    unfold ymLt
    simp only []
    omega

/-! ### Claim C6: total price and empty-input behaviour -/

/-- C6: `get_total_price` sums the price field over all records (so the
empty input yields 0), and on the empty input both summaries are the empty
mapping. -/
theorem total_price_spec (items : List MarketItem) :
    get_total_price items = ∑ i : Fin items.length, (items.get i).price ∧
    get_total_price ([] : List MarketItem) = 0 ∧
    get_total_price_by_name ([] : List MarketItem) = [] ∧
    get_total_price_by_month ([] : List MarketItem) = [] := by
  refine ⟨?_, rfl, ?_, ?_⟩
  · unfold get_total_price
    induction items with
    | nil => simp
    | cons it rest ih =>
        rw [List.map_cons, List.sum_cons, ih]
        simp only [List.length_cons]
        rw [Fin.sum_univ_succ]
        rfl
  · unfold get_total_price_by_name
    rw [List.foldl_nil, List.mergeSort_nil]
  · unfold get_total_price_by_month
    rw [List.foldl_nil, List.mergeSort_nil]

end MarketStats
